import Mathlib

/-!
Verification of the JerryParser log analyzer (`src/main.cpp`).

The development shallowly embeds the core pipeline of the program:

* `matchAt` / `scan` / `ExtractJerryPurchases` model `ExtractJerryPurchases`
  (main.cpp lines 161-217): a backtracking model of the ECMAScript regex
  `You purchased .+(.)(Green|Blue|PurPle|Golden) Jerry (Talisman|Artifact) .+for .+?([0-9,]+) coins`
  iterated with `std::sregex_iterator` (leftmost match, resume at match end).
  C++ `std::string` is modelled as `List Char`; the inputs of interest are
  ASCII so byte positions and character positions coincide.  `.` is modelled
  as any character except the line terminators `'\n'` and `'\r'`.
* `stollModel` / `parseCostToken` model the cost normalization
  (lines 181-193): erase every `','`, erase the first character
  unconditionally (`costStr.erase(0, 1)`), then `std::stoll` with the
  surrounding `try`/`catch` defaulting to 0.  `long long` is modelled as
  `Int` with the `std::out_of_range` bound of `stoll` made explicit.
* `jerryTypeOf` / `recombobulatedOf` / `classify` model the classification
  (lines 195-212).
* `Counts` / `step` / `countsOf` / `aggregate` model the aggregation loop
  and derived quantities in `main` (lines 313-380).  The average
  (line 379) casts through `double` and truncates toward zero; it is
  modelled bit-exactly by `doubleDivTrunc`: each operand is rounded to the
  nearest IEEE 754 double (53-bit significand, ties to even), the division
  is correctly rounded, and the quotient is truncated toward zero, all in
  integer arithmetic.  For example `doubleDivTrunc (2^53 + 1) 1 = 2^53`,
  reproducing the rounding of the `double` conversion, where exact integer
  truncation would give `2^53 + 1`.
-/

/-- Talisman の種類 (main.cpp lines 19-26). -/
inductive JerryType
  | GREEN
  | BLUE
  | PURPLE
  | GOLDEN
  | UNKNOWN
deriving DecidableEq

/-- 購入データ (main.cpp lines 31-38); `cost` is a C++ `long long`. -/
structure TalismanPurchase where
  type : JerryType
  recombobulated : Bool
  cost : Int
deriving DecidableEq

/-- The triple of captured substrings of one regex match:
group 1 `(.)`, group 2 `(Green|Blue|PurPle|Golden)`, group 4 `([0-9,]+)`.
Group 3 `(Talisman|Artifact)` is never read by the program. -/
structure RawMatch where
  rarity : List Char
  color : List Char
  costTok : List Char
deriving DecidableEq

/-- ECMAScript `.`: any character except a line terminator. -/
def isDotChar (c : Char) : Bool :=
  c ≠ '\n' && c ≠ '\r'

/-- The character class `[0-9,]`. -/
def isCostChar (c : Char) : Bool :=
  c.isDigit || c = ','

/-- Match a literal: `dropLit l s = some r` iff `s = l ++ r`. -/
def dropLit : List Char → List Char → Option (List Char)
  | [], s => some s
  | _ :: _, [] => none
  | l :: ls, c :: cs => if l = c then dropLit ls cs else none

/-- All ways to split `s` as `pre ++ suf`, with the shortest `pre` first. -/
def splitsAsc (s : List Char) : List (List Char × List Char) :=
  (List.range (s.length + 1)).map (fun k => (s.take k, s.drop k))

/-- All ways to split `s` as `pre ++ suf`, with the longest `pre` first. -/
def splitsDesc (s : List Char) : List (List Char × List Char) :=
  (splitsAsc s).reverse

/-- The alternation `(Green|Blue|PurPle|Golden)`; returns the captured
color and the rest of the input. -/
def matchColor (s : List Char) : Option (List Char × List Char) :=
  match dropLit ("Green".toList) s with
  | some r => some ("Green".toList, r)
  | none =>
    match dropLit ("Blue".toList) s with
    | some r => some ("Blue".toList, r)
    | none =>
      match dropLit ("PurPle".toList) s with
      | some r => some ("PurPle".toList, r)
      | none =>
        match dropLit ("Golden".toList) s with
        | some r => some ("Golden".toList, r)
        | none => none

/-- The alternation `(Talisman|Artifact)`; the capture is discarded by the
program, so only the rest of the input is returned. -/
def matchItem (s : List Char) : Option (List Char) :=
  match dropLit ("Talisman".toList) s with
  | some r => some r
  | none => dropLit ("Artifact".toList) s

/-- `([0-9,]+) coins` with the `+` greedy: longest repetition first. -/
def matchCost (s : List Char) : Option (List Char × List Char) :=
  List.findSome? (fun pd =>
    if pd.1 ≠ [] && pd.1.all isCostChar then
      (dropLit (" coins".toList) pd.2).map (fun rest => (pd.1, rest))
    else none) (splitsDesc s)

/-- `for .+?([0-9,]+) coins` with the `+?` lazy: shortest repetition first. -/
def matchTail (s : List Char) : Option (List Char × List Char) :=
  (dropLit ("for ".toList) s).bind (fun s9 =>
    List.findSome? (fun pc =>
      if pc.1 ≠ [] && pc.1.all isDotChar then matchCost pc.2 else none)
      (splitsAsc s9))

/-- ` .+for .+?([0-9,]+) coins` following the item word; the `.+` is
greedy. -/
def matchAfterItem (s : List Char) : Option (List Char × List Char) :=
  (dropLit (" ".toList) s).bind (fun s7 =>
    List.findSome? (fun pb =>
      if pb.1 ≠ [] && pb.1.all isDotChar then matchTail pb.2 else none)
      (splitsDesc s7))

/-- `(.)(Green|Blue|PurPle|Golden) Jerry (Talisman|Artifact) .+for .+?([0-9,]+) coins`
starting at the rarity-code character. -/
def matchFromRarity (s : List Char) : Option (RawMatch × List Char) :=
  match s with
  | [] => none
  | r :: s3 =>
    if isDotChar r then
      (matchColor s3).bind (fun pc =>
        (dropLit (" Jerry ".toList) pc.2).bind (fun s5 =>
          (matchItem s5).bind (fun s6 =>
            (matchAfterItem s6).map (fun pt =>
              (⟨[r], pc.1, pt.1⟩, pt.2)))))
    else none

/-- One attempt of the whole pattern anchored at the start of `s`;
`some (m, rest)` returns the captures and the input remaining after the
match.  The leading `.+` is greedy, so the longest prefix is tried first,
exactly as ECMAScript backtracking does. -/
def matchAt (s : List Char) : Option (RawMatch × List Char) :=
  (dropLit ("You purchased ".toList) s).bind (fun s1 =>
    List.findSome? (fun pa =>
      if pa.1 ≠ [] && pa.1.all isDotChar then matchFromRarity pa.2 else none)
      (splitsDesc s1))

/-- Leftmost match: try `matchAt` at offsets 0, 1, 2, …; `some (i, m, rest)`
gives the offset of the first successful attempt. -/
def scan : List Char → Option (Nat × RawMatch × List Char)
  | [] => none
  | c :: cs =>
    match matchAt (c :: cs) with
    | some (m, rest) => some (0, m, rest)
    | none => (scan cs).map (fun x => (x.1 + 1, x.2.1, x.2.2))

/-- The `std::sregex_iterator` loop: repeatedly take the leftmost match and
resume right after it.  `fuel` bounds the recursion; every match consumes
at least one character, so `s.length + 1` fuel is always enough. -/
def extractLoop : Nat → List Char → List RawMatch
  | 0, _ => []
  | fuel + 1, s =>
    match scan s with
    | none => []
    | some (_, m, rest) => m :: extractLoop fuel rest

/-- All raw matches of the pattern in `s`, in input order. -/
def extractRawMatches (s : List Char) : List RawMatch :=
  extractLoop (s.length + 1) s

/-- `extractLoop` instrumented with the absolute start and end position of
each match (the end position is also where the next search resumes). -/
def extractScanPos : Nat → Nat → List Char → List (Nat × Nat × RawMatch)
  | 0, _, _ => []
  | fuel + 1, base, s =>
    match scan s with
    | none => []
    | some (i, m, rest) =>
      (base + i, base + (s.length - rest.length), m) ::
        extractScanPos fuel (base + (s.length - rest.length)) rest

/-- The character class recognized by `std::isspace` in the default locale,
skipped by `std::stoll` before the number. -/
def isSpaceChar (c : Char) : Bool :=
  c = ' ' || c = '\t' || c = '\n' || c = '\x0b' || c = '\x0c' || c = '\r'

/-- Numeric value of a decimal digit character. -/
def digitVal (c : Char) : Nat :=
  c.toNat - '0'.toNat

/-- `LLONG_MAX`. -/
def LLONG_MAX : Int := 9223372036854775807

/-- `LLONG_MIN`. -/
def LLONG_MIN : Int := -9223372036854775808

/-- Model of `std::stoll(s)` (base 10): skip whitespace, read an optional
sign, then a non-empty maximal run of decimal digits; `none` models a
thrown `std::invalid_argument` (no digits) or `std::out_of_range` (value
outside `long long`).  Trailing non-digit characters are ignored, as by
`stoll`. -/
def stollModel (s : List Char) : Option Int :=
  let s1 := s.dropWhile isSpaceChar
  let neg : Bool := s1.head? = some '-'
  let s2 : List Char :=
    if s1.head? = some '-' ∨ s1.head? = some '+' then s1.tail else s1
  let ds := s2.takeWhile Char.isDigit
  if ds = [] then none
  else
    let n : Nat := ds.foldl (fun a c => a * 10 + digitVal c) 0
    let v : Int := if neg then -(n : Int) else (n : Int)
    if v < LLONG_MIN ∨ LLONG_MAX < v then none else some v

/-- Cost normalization (main.cpp lines 181-193): erase every `','`, erase
the first character unconditionally (`costStr.erase(0, 1)`), then `stoll`
with the `catch` branch defaulting the cost to 0. -/
def parseCostToken (tok : List Char) : Int :=
  match stollModel ((tok.filter (fun c => c ≠ ',')).drop 1) with
  | some v => v
  | none => 0

/-- タリスマンの種類判定 (main.cpp lines 196-204).  Note the comparison is
with `"Purple"`, while the regex alternative is spelled `"PurPle"`. -/
def jerryTypeOf (color : List Char) : JerryType :=
  if color = "Green".toList then JerryType.GREEN
  else if color = "Blue".toList then JerryType.BLUE
  else if color = "Purple".toList then JerryType.PURPLE
  else if color = "Golden".toList then JerryType.GOLDEN
  else JerryType.UNKNOWN

/-- Recombobulated 判定 (main.cpp lines 207-210). -/
def recombobulatedOf (t : JerryType) (rarity : List Char) : Bool :=
  (t = JerryType.GREEN && rarity = "9".toList) ||
  (t = JerryType.BLUE && rarity = "5".toList) ||
  (t = JerryType.PURPLE && rarity = "6".toList) ||
  (t = JerryType.GOLDEN && rarity = "d".toList)

/-- The enhancement lookup table implicit in lines 207-210: the unique
rarity code that marks each known tier recombobulated. -/
def RECOM_TABLE : List (JerryType × List Char) :=
  [(JerryType.GREEN, "9".toList), (JerryType.BLUE, "5".toList),
   (JerryType.PURPLE, "6".toList), (JerryType.GOLDEN, "d".toList)]

/-- The classification step of the loop body (main.cpp lines 177-212):
one `RawMatch` becomes one `TalismanPurchase`. -/
def classify (m : RawMatch) : TalismanPurchase :=
  { type := jerryTypeOf m.color
    recombobulated := recombobulatedOf (jerryTypeOf m.color) m.rarity
    cost := parseCostToken m.costTok }

/-- `ExtractJerryPurchases` (main.cpp lines 161-217): every regex match is
classified, in input order. -/
def ExtractJerryPurchases (s : List Char) : List TalismanPurchase :=
  (extractRawMatches s).map classify

/-- The running totals of the aggregation loop (main.cpp lines 313-322). -/
structure Counts where
  totalCost : Int
  greenCount : Nat
  recomGreenCount : Nat
  blueCount : Nat
  recomBlueCount : Nat
  purpleCount : Nat
  recomPurpleCount : Nat
  goldenCount : Nat
  recomGoldenCount : Nat
deriving DecidableEq

/-- All counters zero, as initialized at main.cpp lines 314-322. -/
def zeroCounts : Counts :=
  ⟨0, 0, 0, 0, 0, 0, 0, 0, 0⟩

/-- One iteration of the aggregation loop (main.cpp lines 324-357):
the cost always accumulates, then a four-way branch on the type and a
two-way branch on the flag bumps exactly one counter; `UNKNOWN` falls into
the `default` branch and bumps none. -/
def step (c : Counts) (p : TalismanPurchase) : Counts :=
  let c1 := { c with totalCost := c.totalCost + p.cost }
  match p.type with
  | JerryType.GREEN =>
    if p.recombobulated then { c1 with recomGreenCount := c1.recomGreenCount + 1 }
    else { c1 with greenCount := c1.greenCount + 1 }
  | JerryType.BLUE =>
    if p.recombobulated then { c1 with recomBlueCount := c1.recomBlueCount + 1 }
    else { c1 with blueCount := c1.blueCount + 1 }
  | JerryType.PURPLE =>
    if p.recombobulated then { c1 with recomPurpleCount := c1.recomPurpleCount + 1 }
    else { c1 with purpleCount := c1.purpleCount + 1 }
  | JerryType.GOLDEN =>
    if p.recombobulated then { c1 with recomGoldenCount := c1.recomGoldenCount + 1 }
    else { c1 with goldenCount := c1.goldenCount + 1 }
  | JerryType.UNKNOWN => c1

/-- The whole aggregation loop as a left fold. -/
def countsOf (ps : List TalismanPurchase) : Counts :=
  ps.foldl step zeroCounts

/-- `totalGreenEquivalent` (main.cpp lines 360-369). -/
def totalGreenEquivalentOf (c : Counts) : Nat :=
  c.greenCount + c.recomGreenCount + c.blueCount * 5 + c.recomBlueCount * 5 +
    c.purpleCount * 25 + c.recomPurpleCount * 25 +
    c.goldenCount * 125 + c.recomGoldenCount * 125

/-- `adjustedCost` (main.cpp lines 372-373). -/
def adjustedCostOf (c : Counts) (recombobulatorPrice : Int) : Int :=
  c.totalCost -
    ((c.recomGreenCount + c.recomBlueCount + c.recomPurpleCount + c.recomGoldenCount : Nat) : Int) *
      recombobulatorPrice

/-- Floor of log2, by halving with explicit fuel (kernel-reducible). -/
def natLog2F : Nat → Nat → Nat
  | 0, _ => 0
  | fuel + 1, n => if n ≤ 1 then 0 else natLog2F fuel (n / 2) + 1

/-- Floor of log2 of a positive natural number. -/
def natLog2 (n : Nat) : Nat := natLog2F n n

/-- Round to nearest, ties to even, of the ratio `a / b` (for `b > 0`):
the IEEE 754 default rounding used by the target's double conversions and
division. -/
def rneDiv (a b : Nat) : Nat :=
  let q := a / b
  let r := a % b
  if 2 * r < b then q
  else if b < 2 * r then q + 1
  else if q % 2 = 0 then q else q + 1

/-- For `a, b ≥ 1`, the binade of `a / b`: the `e` with
`2 ^ e ≤ a / b < 2 ^ (e + 1)`. -/
def ratLog2 (a b : Nat) : Int :=
  let e0 : Int := (natLog2 a : Int) - (natLog2 b : Int)
  if 0 ≤ e0 then
    (if b * 2 ^ e0.toNat ≤ a then e0 else e0 - 1)
  else
    (if b ≤ a * 2 ^ (-e0).toNat then e0 else e0 - 1)

/-- The nearest IEEE 754 double to the positive ratio `a / b`, as a
mantissa–exponent pair `(m, e)` of value `m * 2 ^ (e - 52)` with
`m ∈ [2^52, 2^53]` (round to nearest, ties to even; an `m = 2^53` carry
still denotes the correct value).  The exponent is unbounded: every value
the program can feed this lies far inside the double's finite range, so
overflow and subnormals never arise. -/
def roundRatMag (a b : Nat) : Nat × Int :=
  let e := ratLog2 a b
  let m :=
    if 52 ≤ e then rneDiv a (b * 2 ^ (e - 52).toNat)
    else rneDiv (a * 2 ^ (52 - e).toNat) b
  (m, e)

/-- Truncation toward zero of the non-negative double value
`m * 2 ^ (e - 52)`, the effect of `static_cast<long long>` on it
(undefined in C++ outside the `long long` range; the model simply
truncates). -/
def truncMag (m : Nat) (e : Int) : Nat :=
  if 52 ≤ e then m * 2 ^ (e - 52).toNat else m / 2 ^ (52 - e).toNat

/-- `static_cast<double>` of an integer: round to nearest, ties to even.
The result is again an integer, because at `|n| ≥ 2^52` the binade spacing
is a positive integer (and below that the conversion is exact). -/
def roundIntToDouble (n : Int) : Int :=
  if n = 0 then 0
  else
    let p := roundRatMag n.natAbs 1
    let v : Int := (truncMag p.1 p.2 : Nat)
    if 0 ≤ n then v else -v

/-- Line 379's arithmetic:
`static_cast<long long>(static_cast<double>(adjustedCost) / totalGreenEquivalent)`.
Both operands become doubles (each conversion rounds to nearest, ties to
even), the double division is correctly rounded, and the quotient is
truncated toward zero.  The program guards `tge > 0` before this runs. -/
def doubleDivTrunc (adj : Int) (tge : Nat) : Int :=
  let a := roundIntToDouble adj
  let b := (roundIntToDouble (tge : Int)).toNat
  if a = 0 then 0
  else
    let p := roundRatMag a.natAbs b
    let v : Int := (truncMag p.1 p.2 : Nat)
    if 0 ≤ a then v else -v

/-- The summary values printed by `main` (lines 383-413). -/
structure Summary where
  totalCost : Int
  greenCount : Nat
  recomGreenCount : Nat
  blueCount : Nat
  recomBlueCount : Nat
  purpleCount : Nat
  recomPurpleCount : Nat
  goldenCount : Nat
  recomGoldenCount : Nat
  totalGreenEquivalent : Nat
  adjustedCost : Int
  avgPricePerGreen : Int
deriving DecidableEq

/-- The aggregation of main.cpp lines 313-380 as a function of the purchase
list and the user-supplied Recombobulator price.  The average at line 379
is `static_cast<long long>(static_cast<double>(adjustedCost) / totalGreenEquivalent)`,
modelled exactly by `doubleDivTrunc`: operands rounded to double, division
correctly rounded, result truncated toward zero. -/
def aggregate (ps : List TalismanPurchase) (recombobulatorPrice : Int) : Summary :=
  let c := countsOf ps
  let tge := totalGreenEquivalentOf c
  let adj := adjustedCostOf c recombobulatorPrice
  { totalCost := c.totalCost
    greenCount := c.greenCount
    recomGreenCount := c.recomGreenCount
    blueCount := c.blueCount
    recomBlueCount := c.recomBlueCount
    purpleCount := c.purpleCount
    recomPurpleCount := c.recomPurpleCount
    goldenCount := c.goldenCount
    recomGoldenCount := c.recomGoldenCount
    totalGreenEquivalent := tge
    adjustedCost := adj
    avgPricePerGreen := if 0 < tge then doubleDivTrunc adj tge else 0 }

/-- Sum of the costs of a purchase list. -/
def sumCosts (ps : List TalismanPurchase) : Int :=
  (ps.map TalismanPurchase.cost).sum

/-- Number of purchases of tier `t` with enhancement flag `e`. -/
def countTier (t : JerryType) (e : Bool) (ps : List TalismanPurchase) : Nat :=
  ps.countP (fun p => decide (p.type = t) && (p.recombobulated == e))

/-- Number of purchases carrying the recombobulated flag, whatever the
tier. -/
def countRecom (ps : List TalismanPurchase) : Nat :=
  ps.countP (fun p => p.recombobulated)

/-- Modelled from the spec: `strtoll`-style base-10 parsing written
independently of `stollModel`, with the digit run valued through
`Nat.ofDigits`; used to restate cost parsing for comparison with the
code-derived definition. -/
def specParseBase10 (s : List Char) : Option Int :=
  let t := s.dropWhile isSpaceChar
  let neg : Bool := t.head? = some '-'
  let u : List Char :=
    if t.head? = some '-' ∨ t.head? = some '+' then t.tail else t
  let ds := u.takeWhile Char.isDigit
  if ds = [] then none
  else
    let n : Nat := Nat.ofDigits 10 ((ds.map digitVal).reverse)
    let v : Int := if neg then -(n : Int) else (n : Int)
    if v < -(2 : Int) ^ 63 ∨ (2 : Int) ^ 63 - 1 < v then none else some v

/-- Modelled from the spec: the cost rule exactly as the specification
states it — remove the comma thousands separators, then remove one leading
character only when it is not a digit, then parse base 10 (0 on
failure). -/
def claimCostRule (tok : List Char) : Int :=
  let noSep := tok.filter (fun c => c ≠ ',')
  let stripped : List Char := match noSep with
    | c :: rest => if c.isDigit then noSep else rest
    | [] => []
  (specParseBase10 stripped).getD 0

/-- The amended cost rule: remove the comma thousands separators, then
remove the first character unconditionally (digit or not), then parse
base 10 (0 on failure). -/
def amendedCostRule (tok : List Char) : Int :=
  (specParseBase10 ((tok.filter (fun c => c ≠ ',')).drop 1)).getD 0

/-- A sample log line that the pattern accepts (witness input). -/
def sampleLog : List Char :=
  "You purchased a 9Green Jerry Talisman gem for x612,500 coins".toList

/-- Two purchase lines separated by a newline (witness input). -/
def sampleLog2 : List Char :=
  ("You purchased a 9Green Jerry Talisman gem for x612,500 coins\n" ++
    "You purchased b 5Blue Jerry Artifact z for q7 coins end").toList

/-! ### Structural lemmas about the matcher -/

theorem dropLit_spec : ∀ (l s r : List Char), dropLit l s = some r → s = l ++ r := by
  intro l
  induction l with
  | nil =>
    intro s r h
    simp [dropLit] at h
    simp [h]
  | cons c cs ih =>
    intro s r h
    cases s with
    | nil => simp [dropLit] at h
    | cons d ds =>
      by_cases hc : c = d
      · subst hc
        simp only [dropLit, if_pos rfl] at h
        simp [ih ds r h]
      · simp [dropLit, hc] at h

theorem mem_splitsAsc {s : List Char} {p : List Char × List Char}
    (h : p ∈ splitsAsc s) : p.1 ++ p.2 = s := by
  rcases List.mem_map.mp h with ⟨k, _, hk⟩
  rw [← hk]
  exact List.take_append_drop k s

theorem mem_splitsDesc {s : List Char} {p : List Char × List Char}
    (h : p ∈ splitsDesc s) : p.1 ++ p.2 = s :=
  mem_splitsAsc (List.mem_reverse.mp h)

theorem findSome?_some {α β : Type} {f : α → Option β} :
    ∀ {l : List α} {b : β}, l.findSome? f = some b → ∃ a ∈ l, f a = some b := by
  intro l
  induction l with
  | nil => intro b h; simp [List.findSome?] at h
  | cons a as ih =>
    intro b h
    rw [List.findSome?_cons] at h
    cases hfa : f a with
    | some v =>
      rw [hfa] at h
      exact ⟨a, List.mem_cons_self a as, hfa.trans h⟩
    | none =>
      rw [hfa] at h
      rcases ih h with ⟨x, hx, hfx⟩
      exact ⟨x, List.mem_cons_of_mem a hx, hfx⟩

theorem matchColor_spec {s : List Char} {x : List Char × List Char}
    (h : matchColor s = some x) :
    (x.1 = "Green".toList ∨ x.1 = "Blue".toList ∨ x.1 = "PurPle".toList ∨
      x.1 = "Golden".toList) ∧ x.1 ≠ [] ∧ x.1 ++ x.2 = s := by
  unfold matchColor at h
  cases h1 : dropLit ("Green".toList) s with
  | some r =>
    rw [h1] at h
    cases h
    refine ⟨Or.inl rfl, ?_, (dropLit_spec _ _ _ h1).symm⟩
    show ("Green".toList : List Char) ≠ []
    decide
  | none =>
    rw [h1] at h
    cases h2 : dropLit ("Blue".toList) s with
    | some r =>
      rw [h2] at h
      cases h
      refine ⟨Or.inr (Or.inl rfl), ?_, (dropLit_spec _ _ _ h2).symm⟩
      show ("Blue".toList : List Char) ≠ []
      decide
    | none =>
      rw [h2] at h
      cases h3 : dropLit ("PurPle".toList) s with
      | some r =>
        rw [h3] at h
        cases h
        refine ⟨Or.inr (Or.inr (Or.inl rfl)), ?_, (dropLit_spec _ _ _ h3).symm⟩
        show ("PurPle".toList : List Char) ≠ []
        decide
      | none =>
        rw [h3] at h
        cases h4 : dropLit ("Golden".toList) s with
        | some r =>
          rw [h4] at h
          cases h
          refine ⟨Or.inr (Or.inr (Or.inr rfl)), ?_, (dropLit_spec _ _ _ h4).symm⟩
          show ("Golden".toList : List Char) ≠ []
          decide
        | none => rw [h4] at h; cases h

theorem matchItem_spec {s r : List Char} (h : matchItem s = some r) :
    ∃ pre : List Char, pre ≠ [] ∧ pre ++ r = s := by
  unfold matchItem at h
  cases h1 : dropLit ("Talisman".toList) s with
  | some r2 =>
    rw [h1] at h
    cases h
    exact ⟨"Talisman".toList, by decide, (dropLit_spec _ _ _ h1).symm⟩
  | none =>
    rw [h1] at h
    exact ⟨"Artifact".toList, by decide, (dropLit_spec _ _ _ h).symm⟩

theorem append_ne_nil_left {a b : List Char} (ha : a ≠ []) : a ++ b ≠ [] := by
  cases a with
  | nil => exact absurd rfl ha
  | cons x xs => simp

theorem matchCost_spec {s : List Char} {x : List Char × List Char}
    (h : matchCost s = some x) :
    x.1 ≠ [] ∧ x.1.all isCostChar = true ∧
      ∃ pre : List Char, pre ≠ [] ∧ pre ++ x.2 = s := by
  unfold matchCost at h
  rcases findSome?_some h with ⟨pd, hmem, hpd⟩
  have hsplit := mem_splitsDesc hmem
  split at hpd
  case isTrue hcond =>
    rw [Bool.and_eq_true, decide_eq_true_eq] at hcond
    rcases Option.map_eq_some'.mp hpd with ⟨rest, hdrop, hx⟩
    subst hx
    have h2 := dropLit_spec _ _ _ hdrop
    refine ⟨hcond.1, hcond.2, pd.1 ++ " coins".toList, append_ne_nil_left hcond.1, ?_⟩
    show (pd.1 ++ " coins".toList) ++ rest = s
    rw [List.append_assoc, ← h2]
    exact hsplit
  case isFalse => cases hpd

theorem matchTail_spec {s : List Char} {x : List Char × List Char}
    (h : matchTail s = some x) :
    x.1 ≠ [] ∧ x.1.all isCostChar = true ∧
      ∃ pre : List Char, pre ≠ [] ∧ pre ++ x.2 = s := by
  unfold matchTail at h
  rcases Option.bind_eq_some.mp h with ⟨s9, hdrop, hfind⟩
  rcases findSome?_some hfind with ⟨pc, hmem, hpc⟩
  have hsplit := mem_splitsAsc hmem
  split at hpc
  case isTrue hcond =>
    rcases matchCost_spec hpc with ⟨h1, h2, pre, hpre, hpre2⟩
    have hd := dropLit_spec _ _ _ hdrop
    refine ⟨h1, h2, "for ".toList ++ pc.1 ++ pre,
      append_ne_nil_left (append_ne_nil_left (by decide)), ?_⟩
    rw [List.append_assoc, List.append_assoc, hpre2, hsplit, ← hd]
  case isFalse => cases hpc

theorem matchAfterItem_spec {s : List Char} {x : List Char × List Char}
    (h : matchAfterItem s = some x) :
    x.1 ≠ [] ∧ x.1.all isCostChar = true ∧
      ∃ pre : List Char, pre ≠ [] ∧ pre ++ x.2 = s := by
  unfold matchAfterItem at h
  rcases Option.bind_eq_some.mp h with ⟨s7, hdrop, hfind⟩
  rcases findSome?_some hfind with ⟨pb, hmem, hpb⟩
  have hsplit := mem_splitsDesc hmem
  split at hpb
  case isTrue hcond =>
    rcases matchTail_spec hpb with ⟨h1, h2, pre, hpre, hpre2⟩
    have hd := dropLit_spec _ _ _ hdrop
    refine ⟨h1, h2, " ".toList ++ pb.1 ++ pre,
      append_ne_nil_left (append_ne_nil_left (by decide)), ?_⟩
    rw [List.append_assoc, List.append_assoc, hpre2, hsplit, ← hd]
  case isFalse => cases hpb

theorem matchFromRarity_spec {s : List Char} {x : RawMatch × List Char}
    (h : matchFromRarity s = some x) :
    (x.1.color = "Green".toList ∨ x.1.color = "Blue".toList ∨
      x.1.color = "PurPle".toList ∨ x.1.color = "Golden".toList) ∧
    x.1.costTok ≠ [] ∧ x.1.costTok.all isCostChar = true ∧
      ∃ pre : List Char, pre ≠ [] ∧ pre ++ x.2 = s := by
  cases s with
  | nil => simp [matchFromRarity] at h
  | cons r s3 =>
    simp only [matchFromRarity] at h
    split at h
    swap
    · cases h
    · rcases Option.bind_eq_some.mp h with ⟨pc, hcolor, h5⟩
      rcases Option.bind_eq_some.mp h5 with ⟨s5, hjerry, h6⟩
      rcases Option.bind_eq_some.mp h6 with ⟨s6, hitem, h7⟩
      rcases Option.map_eq_some'.mp h7 with ⟨pt, hafter, hx⟩
      subst hx
      rcases matchColor_spec hcolor with ⟨hcol4, hcolne, hcoleq⟩
      rcases matchItem_spec hitem with ⟨pi, hpine, hpieq⟩
      rcases matchAfterItem_spec hafter with ⟨htokne, htokall, pre, hprene, hpreeq⟩
      have hj := dropLit_spec _ _ _ hjerry
      refine ⟨hcol4, htokne, htokall,
        [r] ++ pc.1 ++ " Jerry ".toList ++ pi ++ pre, by simp, ?_⟩
      show ([r] ++ pc.1 ++ " Jerry ".toList ++ pi ++ pre) ++ pt.2 = r :: s3
      rw [← hcoleq, hj, ← hpieq, ← hpreeq]
      simp [List.append_assoc]

theorem matchAt_spec {s : List Char} {x : RawMatch × List Char}
    (h : matchAt s = some x) :
    (x.1.color = "Green".toList ∨ x.1.color = "Blue".toList ∨
      x.1.color = "PurPle".toList ∨ x.1.color = "Golden".toList) ∧
    x.1.costTok ≠ [] ∧ x.1.costTok.all isCostChar = true ∧
      ∃ pre : List Char, pre ≠ [] ∧ pre ++ x.2 = s := by
  unfold matchAt at h
  rcases Option.bind_eq_some.mp h with ⟨s1, hdrop, hfind⟩
  rcases findSome?_some hfind with ⟨pa, hmem, hpa⟩
  have hsplit := mem_splitsDesc hmem
  split at hpa
  case isTrue =>
    rcases matchFromRarity_spec hpa with ⟨h4, htn, hta, pre, hpre, hpreeq⟩
    have hd := dropLit_spec _ _ _ hdrop
    refine ⟨h4, htn, hta, "You purchased ".toList ++ pa.1 ++ pre,
      append_ne_nil_left (append_ne_nil_left (by decide)), ?_⟩
    rw [List.append_assoc, List.append_assoc, hpreeq, hsplit, ← hd]
  case isFalse => cases hpa

theorem matchAt_nil : matchAt ([] : List Char) = none := by decide

theorem matchAt_rest_length {s : List Char} {x : RawMatch × List Char}
    (h : matchAt s = some x) : x.2.length < s.length := by
  rcases matchAt_spec h with ⟨-, -, -, pre, hpre, hpreeq⟩
  have := congrArg List.length hpreeq
  simp only [List.length_append] at this
  cases pre with
  | nil => exact absurd rfl hpre
  | cons a as => simp at this; omega

theorem scan_none : ∀ {s : List Char}, scan s = none → ∀ j, matchAt (s.drop j) = none := by
  intro s
  induction s with
  | nil =>
    intro _ j
    rw [List.drop_nil]
    exact matchAt_nil
  | cons c cs ih =>
    intro h j
    simp only [scan] at h
    cases hm : matchAt (c :: cs) with
    | some v => rw [hm] at h; cases h
    | none =>
      rw [hm] at h
      have h2 : scan cs = none := by
        cases hs : scan cs with
        | none => rfl
        | some v => rw [hs] at h; cases h
      cases j with
      | zero => exact hm
      | succ j => exact ih h2 j

theorem scan_spec : ∀ {s : List Char} {i : Nat} {m : RawMatch} {rest : List Char},
    scan s = some (i, m, rest) →
    matchAt (s.drop i) = some (m, rest) ∧ ∀ j, j < i → matchAt (s.drop j) = none := by
  intro s
  induction s with
  | nil => intro i m rest h; simp [scan] at h
  | cons c cs ih =>
    intro i m rest h
    simp only [scan] at h
    cases hm : matchAt (c :: cs) with
    | some v =>
      obtain ⟨m', rest'⟩ := v
      rw [hm] at h
      injection h with h1
      injection h1 with ha hb
      injection hb with hb1 hb2
      subst ha; subst hb1; subst hb2
      refine ⟨by simpa using hm, ?_⟩
      intro j hj
      exact absurd hj (by omega)
    | none =>
      rw [hm] at h
      rcases Option.map_eq_some'.mp h with ⟨x, hs, hx⟩
      obtain ⟨i', m', rest'⟩ := x
      injection hx with h1 h2
      injection h2 with h2a h2b
      subst h1; subst h2a; subst h2b
      rcases ih hs with ⟨hmm, hnone⟩
      refine ⟨by simpa using hmm, ?_⟩
      intro j hj
      cases j with
      | zero => simpa using hm
      | succ j =>
        have : matchAt (cs.drop j) = none := hnone j (by omega)
        simpa using this

theorem scan_pos {s : List Char} {i : Nat} {m : RawMatch} {rest : List Char}
    (h : scan s = some (i, m, rest)) :
    i < s.length - rest.length ∧ s.length - rest.length ≤ s.length ∧
      rest.length < s.length ∧ rest = s.drop (s.length - rest.length) := by
  rcases scan_spec h with ⟨hm, -⟩
  rcases matchAt_spec hm with ⟨-, -, -, pre, hpre, hpreeq⟩
  have hi : i < s.length := by
    by_contra hcon
    push_neg at hcon
    rw [List.drop_eq_nil_of_le hcon] at hm
    rw [matchAt_nil] at hm
    cases hm
  have hlen : (s.drop i).length = pre.length + rest.length := by
    rw [← hpreeq]; simp
  have hlen2 : s.length - i = pre.length + rest.length := by
    simpa [List.length_drop] using hlen
  have hprelen : 1 ≤ pre.length := by
    cases pre with
    | nil => exact absurd rfl hpre
    | cons a as => simp
  have he : s.length - rest.length = i + pre.length := by omega
  refine ⟨by omega, by omega, by omega, ?_⟩
  rw [he]
  have hdd : s.drop (i + pre.length) = (s.drop i).drop pre.length := by
    rw [List.drop_drop, Nat.add_comm]
  rw [hdd, ← hpreeq, List.drop_left]

theorem extractLoop_eq_map : ∀ (fuel : Nat) (base : Nat) (s : List Char),
    extractLoop fuel s = (extractScanPos fuel base s).map (fun x => x.2.2) := by
  intro fuel
  induction fuel with
  | zero => intro base s; rfl
  | succ n ih =>
    intro base s
    simp only [extractLoop, extractScanPos]
    cases hs : scan s with
    | none => rfl
    | some v =>
      obtain ⟨i, m, rest⟩ := v
      simp only [List.map_cons]
      rw [ih (base + (s.length - rest.length)) rest]

theorem extractScanPos_spec : ∀ (fuel : Nat) (s : List Char) (base : Nat),
    s.length < fuel →
    (∀ x ∈ extractScanPos fuel base s,
        base ≤ x.1 ∧ x.1 < x.2.1 ∧ x.2.1 ≤ base + s.length) ∧
    List.Chain' (fun x y => x.2.1 ≤ y.1) (extractScanPos fuel base s) ∧
    (∀ j, matchAt (s.drop j) ≠ none →
        ∃ x ∈ extractScanPos fuel base s, x.1 ≤ base + j ∧ base + j < x.2.1) := by
  intro fuel
  induction fuel with
  | zero => intro s base h; omega
  | succ n ih =>
    intro s base hlen
    simp only [extractScanPos]
    cases hs : scan s with
    | none =>
      refine ⟨by simp, by simp, ?_⟩
      intro j hj
      exact absurd (scan_none hs j) hj
    | some v =>
      obtain ⟨i, m, rest⟩ := v
      rcases scan_spec hs with ⟨hm, hleft⟩
      rcases scan_pos hs with ⟨hie, hele, hrlt, hrdrop⟩
      set e : Nat := s.length - rest.length with he
      have hrn : rest.length < n := by omega
      rcases ih rest (base + e) hrn with ⟨ihB, ihC, ihCompl⟩
      refine ⟨?_, ?_, ?_⟩
      · intro x hx
        rcases List.mem_cons.mp hx with hx | hx
        · subst hx
          refine ⟨?_, ?_, ?_⟩ <;> (simp; try omega)
        · rcases ihB x hx with ⟨hb1, hb2, hb3⟩
          refine ⟨by omega, hb2, by omega⟩
      · refine List.Chain'.cons' ihC ?_
        intro y hy
        have hmem := List.mem_of_mem_head? hy
        rcases ihB y hmem with ⟨hb1, -, -⟩
        simpa using hb1
      · intro j hj
        by_cases h1 : j < i
        · exact absurd (hleft j h1) hj
        · by_cases h2 : j < e
          · refine ⟨(base + i, base + e, m), List.mem_cons_self _ _, ?_, ?_⟩ <;> simp <;> omega
          · push_neg at h1 h2
            have hdropeq : s.drop j = rest.drop (j - e) := by
              rw [hrdrop, List.drop_drop]
              congr 1
              omega
            rw [hdropeq] at hj
            rcases ihCompl (j - e) hj with ⟨x, hxmem, hx1, hx2⟩
            refine ⟨x, List.mem_cons_of_mem _ hxmem, by omega, by omega⟩

/-! ### Characterization of the aggregation loop -/

theorem foldl_step_eq : ∀ (ps : List TalismanPurchase) (c : Counts),
    ps.foldl step c =
      { totalCost := c.totalCost + sumCosts ps
        greenCount := c.greenCount + countTier JerryType.GREEN false ps
        recomGreenCount := c.recomGreenCount + countTier JerryType.GREEN true ps
        blueCount := c.blueCount + countTier JerryType.BLUE false ps
        recomBlueCount := c.recomBlueCount + countTier JerryType.BLUE true ps
        purpleCount := c.purpleCount + countTier JerryType.PURPLE false ps
        recomPurpleCount := c.recomPurpleCount + countTier JerryType.PURPLE true ps
        goldenCount := c.goldenCount + countTier JerryType.GOLDEN false ps
        recomGoldenCount := c.recomGoldenCount + countTier JerryType.GOLDEN true ps } := by
  intro ps
  induction ps with
  | nil =>
    intro c
    simp [sumCosts, countTier]
  | cons p ps ih =>
    intro c
    rw [List.foldl_cons, ih (step c p)]
    obtain ⟨t, r, co⟩ := p
    cases t <;> cases r <;>
      simp [step, sumCosts, countTier, List.countP_cons, Counts.mk.injEq] <;>
      omega

/-! ### Cost-parsing lemmas -/

theorem foldl_digits_eq_ofDigits : ∀ (ds : List Char) (a : Nat),
    ds.foldl (fun a c => a * 10 + digitVal c) a =
      a * 10 ^ ds.length + Nat.ofDigits 10 ((ds.map digitVal).reverse) := by
  intro ds
  induction ds with
  | nil => intro a; simp [Nat.ofDigits]
  | cons d ds ih =>
    intro a
    rw [List.foldl_cons, ih]
    simp only [List.map_cons, List.reverse_cons, Nat.ofDigits_append, List.length_cons,
      List.length_reverse, List.length_map, Nat.ofDigits_singleton]
    ring

theorem foldl_digits_zero (ds : List Char) :
    ds.foldl (fun a c => a * 10 + digitVal c) 0 =
      Nat.ofDigits 10 ((ds.map digitVal).reverse) := by
  simpa using foldl_digits_eq_ofDigits ds 0

theorem stollModel_eq_specParse (s : List Char) : stollModel s = specParseBase10 s := by
  unfold stollModel specParseBase10
  simp only [foldl_digits_zero]
  have h1 : LLONG_MIN = -(2 : Int) ^ 63 := by decide
  have h2 : LLONG_MAX = (2 : Int) ^ 63 - 1 := by decide
  rw [h1, h2]

theorem isDigit_not_space {c : Char} (h : c.isDigit = true) : isSpaceChar c = false := by
  unfold isSpaceChar
  have h1 : c ≠ ' ' := by intro hh; subst hh; exact absurd h (by decide)
  have h2 : c ≠ '\t' := by intro hh; subst hh; exact absurd h (by decide)
  have h3 : c ≠ '\n' := by intro hh; subst hh; exact absurd h (by decide)
  have h4 : c ≠ '\x0b' := by intro hh; subst hh; exact absurd h (by decide)
  have h5 : c ≠ '\x0c' := by intro hh; subst hh; exact absurd h (by decide)
  have h6 : c ≠ '\r' := by intro hh; subst hh; exact absurd h (by decide)
  simp [h1, h2, h3, h4, h5, h6]

theorem isDigit_ne_dash {c : Char} (h : c.isDigit = true) : c ≠ '-' := by
  intro hc
  subst hc
  exact absurd h (by decide)

theorem isDigit_ne_plus {c : Char} (h : c.isDigit = true) : c ≠ '+' := by
  intro hc
  subst hc
  exact absurd h (by decide)

theorem stollModel_digits_nonneg {s : List Char}
    (h : ∀ c ∈ s, Char.isDigit c = true) :
    ∀ v : Int, stollModel s = some v → 0 ≤ v := by
  intro v hv
  unfold stollModel at hv
  cases s with
  | nil => simp at hv
  | cons c cs =>
    have hc := h c (List.mem_cons_self c cs)
    have hsp : isSpaceChar c = false := isDigit_not_space hc
    have hd : c ≠ '-' := isDigit_ne_dash hc
    have hp : c ≠ '+' := isDigit_ne_plus hc
    simp [hsp, hd, hp, hc] at hv
    omega

theorem parseCostToken_nonneg {tok : List Char} (h : tok.all isCostChar = true) :
    0 ≤ parseCostToken tok := by
  unfold parseCostToken
  cases hs : stollModel ((tok.filter (fun c => decide (c ≠ ','))).drop 1) with
  | none => simp
  | some v =>
    have hdig : ∀ c ∈ (tok.filter (fun c => decide (c ≠ ','))).drop 1,
        Char.isDigit c = true := by
      intro c hc
      have hc2 := List.mem_of_mem_drop hc
      rcases List.mem_filter.mp hc2 with ⟨hmem, hne⟩
      have hcost := List.all_eq_true.mp h c hmem
      simp only [isCostChar, Bool.or_eq_true, decide_eq_true_eq] at hcost
      rcases hcost with hcost | hcost
      · exact hcost
      · exact absurd hcost (by simpa using hne)
    simpa using stollModel_digits_nonneg hdig v hs

theorem extractLoop_shape : ∀ (fuel : Nat) (s : List Char) (m : RawMatch),
    m ∈ extractLoop fuel s →
    (m.color = "Green".toList ∨ m.color = "Blue".toList ∨ m.color = "PurPle".toList ∨
      m.color = "Golden".toList) ∧ m.costTok.all isCostChar = true := by
  intro fuel
  induction fuel with
  | zero => intro s m hm; simp [extractLoop] at hm
  | succ n ih =>
    intro s m hm
    simp only [extractLoop] at hm
    cases hs : scan s with
    | none => rw [hs] at hm; simp at hm
    | some v =>
      obtain ⟨i, m0, rest⟩ := v
      rw [hs] at hm
      rcases List.mem_cons.mp hm with hm | hm
      · subst hm
        rcases scan_spec hs with ⟨hmm, -⟩
        rcases matchAt_spec hmm with ⟨h4, -, hall, -⟩
        exact ⟨h4, hall⟩
      · exact ih rest m hm

theorem jerryTypeOf_not_purple {c : List Char}
    (h : c = "Green".toList ∨ c = "Blue".toList ∨ c = "PurPle".toList ∨
      c = "Golden".toList) :
    jerryTypeOf c ≠ JerryType.PURPLE := by
  rcases h with h | h | h | h <;> subst h <;> decide

theorem recombobulatedOf_UNKNOWN (r : List Char) :
    recombobulatedOf JerryType.UNKNOWN r = false := rfl

theorem countsOf_eq (ps : List TalismanPurchase) :
    countsOf ps =
      { totalCost := sumCosts ps
        greenCount := countTier JerryType.GREEN false ps
        recomGreenCount := countTier JerryType.GREEN true ps
        blueCount := countTier JerryType.BLUE false ps
        recomBlueCount := countTier JerryType.BLUE true ps
        purpleCount := countTier JerryType.PURPLE false ps
        recomPurpleCount := countTier JerryType.PURPLE true ps
        goldenCount := countTier JerryType.GOLDEN false ps
        recomGoldenCount := countTier JerryType.GOLDEN true ps } := by
  unfold countsOf zeroCounts
  rw [foldl_step_eq]
  simp

theorem sumCosts_append (a b : List TalismanPurchase) :
    sumCosts (a ++ b) = sumCosts a + sumCosts b := by
  simp [sumCosts]

theorem sumCosts_cons (p : TalismanPurchase) (b : List TalismanPurchase) :
    sumCosts (p :: b) = p.cost + sumCosts b := by
  simp [sumCosts]

theorem countTier_append (t : JerryType) (e : Bool) (a b : List TalismanPurchase) :
    countTier t e (a ++ b) = countTier t e a + countTier t e b := by
  simp [countTier, List.countP_append]

theorem countTier_cons_ne {t : JerryType} {e : Bool} {p : TalismanPurchase}
    (h : p.type ≠ t) (b : List TalismanPurchase) :
    countTier t e (p :: b) = countTier t e b := by
  simp [countTier, List.countP_cons, h]

theorem classify_unknown_not_recom (m : RawMatch) :
    (classify m).recombobulated = true → (classify m).type ≠ JerryType.UNKNOWN := by
  intro hr ht
  have ht2 : jerryTypeOf m.color = JerryType.UNKNOWN := ht
  have hr2 : recombobulatedOf (jerryTypeOf m.color) m.rarity = true := hr
  rw [ht2, recombobulatedOf_UNKNOWN] at hr2
  cases hr2

theorem countRecom_eq_sum {ps : List TalismanPurchase}
    (h : ∀ p ∈ ps, p.recombobulated = true → p.type ≠ JerryType.UNKNOWN) :
    countRecom ps =
      countTier JerryType.GREEN true ps + countTier JerryType.BLUE true ps +
        countTier JerryType.PURPLE true ps + countTier JerryType.GOLDEN true ps := by
  induction ps with
  | nil => rfl
  | cons p ps ih =>
    have hh : ∀ q ∈ ps, q.recombobulated = true → q.type ≠ JerryType.UNKNOWN :=
      fun q hq => h q (List.mem_cons_of_mem p hq)
    have hrec := ih hh
    obtain ⟨t, r, co⟩ := p
    cases r with
    | false =>
      simp only [countRecom, countTier, List.countP_cons] at *
      simp at *
      omega
    | true =>
      have ht : t ≠ JerryType.UNKNOWN := by
        have := h ⟨t, true, co⟩ (List.mem_cons_self _ _) rfl
        simpa using this
      cases t with
      | UNKNOWN => exact absurd rfl ht
      | GREEN =>
        simp only [countRecom, countTier, List.countP_cons] at *
        simp at *
        omega
      | BLUE =>
        simp only [countRecom, countTier, List.countP_cons] at *
        simp at *
        omega
      | PURPLE =>
        simp only [countRecom, countTier, List.countP_cons] at *
        simp at *
        omega
      | GOLDEN =>
        simp only [countRecom, countTier, List.countP_cons] at *
        simp at *
        omega

/-! ### Claim theorems -/

/-- C1 (counterexample): the claim says one leading character is removed
only when it is a non-digit; the code removes the first character
unconditionally (`costStr.erase(0, 1)`), so on the all-digit-and-comma
token "1,234,567" the code produces 234567 while the claimed rule gives
1234567. -/
theorem C1_cost_parse_counterexample :
    (classify ⟨"9".toList, "Green".toList, "1,234,567".toList⟩).cost = 234567 ∧
    claimCostRule ("1,234,567".toList) = 1234567 ∧
    (234567 : Int) ≠ 1234567 := by
  refine ⟨by decide, by decide, by decide⟩

/-- C1 (amended): for every RawMatch the cost is obtained by removing all
comma characters from the cost token, then removing the first character
unconditionally (digit or not), then parsing the remainder base 10 with 0
on failure; the RawMatch ("9","Green","§12,500") still yields cost 12500
(its removed first character is the stray symbol). -/
theorem C1_cost_parse_amended :
    (∀ m : RawMatch, (classify m).cost = amendedCostRule m.costTok) ∧
    (classify ⟨"9".toList, "Green".toList, "§12,500".toList⟩).cost = 12500 := by
  constructor
  · intro m
    show parseCostToken m.costTok = amendedCostRule m.costTok
    unfold parseCostToken amendedCostRule
    rw [stollModel_eq_specParse]
    cases specParseBase10 ((m.costTok.filter (fun c => decide (c ≠ ','))).drop 1) <;> rfl
  · decide

/-- C3: `tier_equivalent_total` is the dot product of the per-tier counts
(base plus enhanced weighted equally) with the weights GREEN=1, BLUE=5,
PURPLE=25, GOLDEN=125; UNKNOWN purchases contribute nothing. -/
theorem C3_tier_equivalent_dot_product (ps : List TalismanPurchase) (price : Int) :
    (aggregate ps price).totalGreenEquivalent =
      1 * (countTier JerryType.GREEN false ps + countTier JerryType.GREEN true ps) +
      5 * (countTier JerryType.BLUE false ps + countTier JerryType.BLUE true ps) +
      25 * (countTier JerryType.PURPLE false ps + countTier JerryType.PURPLE true ps) +
      125 * (countTier JerryType.GOLDEN false ps + countTier JerryType.GOLDEN true ps) := by
  show totalGreenEquivalentOf (countsOf ps) = _
  rw [countsOf_eq]
  unfold totalGreenEquivalentOf
  ring

/-- C2 (counterexample): the claim says floor division also for negative
adjusted cost; the code casts through `double` and truncates toward zero.
With purchases [(GREEN, enhanced, 0), (GREEN, base, 0)] and
enhancementPrice 3 the adjusted cost is -3 over 2 tier-equivalents: the
code reports -1 while floor(-3/2) is -2. -/
theorem C2_average_counterexample :
    (aggregate [⟨JerryType.GREEN, true, 0⟩, ⟨JerryType.GREEN, false, 0⟩] 3).adjustedCost = -3 ∧
    (aggregate [⟨JerryType.GREEN, true, 0⟩, ⟨JerryType.GREEN, false, 0⟩] 3).totalGreenEquivalent = 2 ∧
    (aggregate [⟨JerryType.GREEN, true, 0⟩, ⟨JerryType.GREEN, false, 0⟩] 3).avgPricePerGreen = -1 ∧
    Int.fdiv (-3) 2 = -2 ∧ ((-1 : Int) ≠ -2) := by
  refine ⟨by decide, by decide, by decide, by decide, by decide⟩

/-- C2 (amended): `average_cost_per_unit` is the `double`-mediated
quotient of `adjusted_cost` by `tier_equivalent_total` truncated toward
zero — operands rounded to nearest double, division correctly rounded,
cast truncating — not floored, whenever `tier_equivalent_total > 0`, and
it is 0 under the explicit zero guard; equivalently it is `doubleDivTrunc`
of the independently characterized adjusted cost and weighted tier total.
Beyond 2^53 the `double` conversion itself rounds, so the result is not
exact integer truncation either: `doubleDivTrunc (2^53 + 1) 1 = 2^53`
while exact truncation gives `2^53 + 1`. -/
theorem C2_average_truncating_division (ps : List TalismanPurchase) (price : Int) :
    ((aggregate ps price).totalGreenEquivalent = 0 →
      (aggregate ps price).avgPricePerGreen = 0) ∧
    (0 < (aggregate ps price).totalGreenEquivalent →
      (aggregate ps price).avgPricePerGreen =
        doubleDivTrunc (aggregate ps price).adjustedCost
          (aggregate ps price).totalGreenEquivalent) ∧
    ((aggregate ps price).avgPricePerGreen =
      (if 0 < countTier JerryType.GREEN false ps + countTier JerryType.GREEN true ps +
            5 * (countTier JerryType.BLUE false ps + countTier JerryType.BLUE true ps) +
            25 * (countTier JerryType.PURPLE false ps + countTier JerryType.PURPLE true ps) +
            125 * (countTier JerryType.GOLDEN false ps + countTier JerryType.GOLDEN true ps)
        then doubleDivTrunc
          (sumCosts ps -
            ((countTier JerryType.GREEN true ps + countTier JerryType.BLUE true ps +
              countTier JerryType.PURPLE true ps + countTier JerryType.GOLDEN true ps : Nat) : Int) *
              price)
          (countTier JerryType.GREEN false ps + countTier JerryType.GREEN true ps +
            5 * (countTier JerryType.BLUE false ps + countTier JerryType.BLUE true ps) +
            25 * (countTier JerryType.PURPLE false ps + countTier JerryType.PURPLE true ps) +
            125 * (countTier JerryType.GOLDEN false ps + countTier JerryType.GOLDEN true ps))
        else 0)) ∧
    doubleDivTrunc ((2 : Int) ^ 53 + 1) 1 = (2 : Int) ^ 53 ∧
    Int.tdiv ((2 : Int) ^ 53 + 1) 1 = (2 : Int) ^ 53 + 1 ∧
    doubleDivTrunc (-3) 2 = -1 := by
  have htge : totalGreenEquivalentOf (countsOf ps) =
      countTier JerryType.GREEN false ps + countTier JerryType.GREEN true ps +
        5 * (countTier JerryType.BLUE false ps + countTier JerryType.BLUE true ps) +
        25 * (countTier JerryType.PURPLE false ps + countTier JerryType.PURPLE true ps) +
        125 * (countTier JerryType.GOLDEN false ps + countTier JerryType.GOLDEN true ps) := by
    rw [countsOf_eq]
    unfold totalGreenEquivalentOf
    ring
  have hadj : adjustedCostOf (countsOf ps) price =
      sumCosts ps -
        ((countTier JerryType.GREEN true ps + countTier JerryType.BLUE true ps +
          countTier JerryType.PURPLE true ps + countTier JerryType.GOLDEN true ps : Nat) : Int) *
          price := by
    rw [countsOf_eq]
    unfold adjustedCostOf
    norm_num
  refine ⟨?_, ?_, ?_, by decide, by decide, by decide⟩
  · intro h
    show (if 0 < totalGreenEquivalentOf (countsOf ps) then _ else (0 : Int)) = 0
    have h0 : totalGreenEquivalentOf (countsOf ps) = 0 := h
    rw [h0]
    simp
  · intro h
    show (if 0 < totalGreenEquivalentOf (countsOf ps) then
        doubleDivTrunc (adjustedCostOf (countsOf ps) price)
          (totalGreenEquivalentOf (countsOf ps)) else (0 : Int)) = _
    rw [if_pos (show 0 < totalGreenEquivalentOf (countsOf ps) from h)]
    rfl
  · show (if 0 < totalGreenEquivalentOf (countsOf ps) then
        doubleDivTrunc (adjustedCostOf (countsOf ps) price)
          (totalGreenEquivalentOf (countsOf ps)) else (0 : Int)) = _
    rw [htge, hadj]

theorem aggregate_counts (ps : List TalismanPurchase) (price : Int) :
    (aggregate ps price).totalCost = sumCosts ps ∧
    (aggregate ps price).greenCount = countTier JerryType.GREEN false ps ∧
    (aggregate ps price).recomGreenCount = countTier JerryType.GREEN true ps ∧
    (aggregate ps price).blueCount = countTier JerryType.BLUE false ps ∧
    (aggregate ps price).recomBlueCount = countTier JerryType.BLUE true ps ∧
    (aggregate ps price).purpleCount = countTier JerryType.PURPLE false ps ∧
    (aggregate ps price).recomPurpleCount = countTier JerryType.PURPLE true ps ∧
    (aggregate ps price).goldenCount = countTier JerryType.GOLDEN false ps ∧
    (aggregate ps price).recomGoldenCount = countTier JerryType.GOLDEN true ps := by
  have h := countsOf_eq ps
  refine ⟨?_, ?_, ?_, ?_, ?_, ?_, ?_, ?_, ?_⟩ <;> simp only [aggregate, h]

/-- C4: a purchase whose tier is UNKNOWN adds its cost to `totalCost` but
leaves all 8 per-tier/enhanced counters and `totalGreenEquivalent`
unchanged, wherever it sits in the purchase list. -/
theorem C4_unrecognized_cost_only (ps1 ps2 : List TalismanPurchase)
    (p : TalismanPurchase) (price : Int) (hp : p.type = JerryType.UNKNOWN) :
    (aggregate (ps1 ++ p :: ps2) price).totalCost =
      (aggregate (ps1 ++ ps2) price).totalCost + p.cost ∧
    (aggregate (ps1 ++ p :: ps2) price).greenCount =
      (aggregate (ps1 ++ ps2) price).greenCount ∧
    (aggregate (ps1 ++ p :: ps2) price).recomGreenCount =
      (aggregate (ps1 ++ ps2) price).recomGreenCount ∧
    (aggregate (ps1 ++ p :: ps2) price).blueCount =
      (aggregate (ps1 ++ ps2) price).blueCount ∧
    (aggregate (ps1 ++ p :: ps2) price).recomBlueCount =
      (aggregate (ps1 ++ ps2) price).recomBlueCount ∧
    (aggregate (ps1 ++ p :: ps2) price).purpleCount =
      (aggregate (ps1 ++ ps2) price).purpleCount ∧
    (aggregate (ps1 ++ p :: ps2) price).recomPurpleCount =
      (aggregate (ps1 ++ ps2) price).recomPurpleCount ∧
    (aggregate (ps1 ++ p :: ps2) price).goldenCount =
      (aggregate (ps1 ++ ps2) price).goldenCount ∧
    (aggregate (ps1 ++ p :: ps2) price).recomGoldenCount =
      (aggregate (ps1 ++ ps2) price).recomGoldenCount ∧
    (aggregate (ps1 ++ p :: ps2) price).totalGreenEquivalent =
      (aggregate (ps1 ++ ps2) price).totalGreenEquivalent := by
  have hne : ∀ t : JerryType, t ≠ JerryType.UNKNOWN → p.type ≠ t := by
    intro t ht hcon
    exact ht (hcon ▸ hp)
  have hG := hne JerryType.GREEN (by decide)
  have hB := hne JerryType.BLUE (by decide)
  have hP := hne JerryType.PURPLE (by decide)
  have hGo := hne JerryType.GOLDEN (by decide)
  have hcnt : ∀ (t : JerryType) (e : Bool), p.type ≠ t →
      countTier t e (ps1 ++ p :: ps2) = countTier t e (ps1 ++ ps2) := by
    intro t e ht
    rw [countTier_append, countTier_append, countTier_cons_ne ht]
  have ha := aggregate_counts (ps1 ++ p :: ps2) price
  have hb := aggregate_counts (ps1 ++ ps2) price
  refine ⟨?_, ?_, ?_, ?_, ?_, ?_, ?_, ?_, ?_, ?_⟩
  · rw [ha.1, hb.1, sumCosts_append, sumCosts_append, sumCosts_cons]
    ring
  · rw [ha.2.1, hb.2.1]; exact hcnt _ _ hG
  · rw [ha.2.2.1, hb.2.2.1]; exact hcnt _ _ hG
  · rw [ha.2.2.2.1, hb.2.2.2.1]; exact hcnt _ _ hB
  · rw [ha.2.2.2.2.1, hb.2.2.2.2.1]; exact hcnt _ _ hB
  · rw [ha.2.2.2.2.2.1, hb.2.2.2.2.2.1]; exact hcnt _ _ hP
  · rw [ha.2.2.2.2.2.2.1, hb.2.2.2.2.2.2.1]; exact hcnt _ _ hP
  · rw [ha.2.2.2.2.2.2.2.1, hb.2.2.2.2.2.2.2.1]; exact hcnt _ _ hGo
  · rw [ha.2.2.2.2.2.2.2.2, hb.2.2.2.2.2.2.2.2]; exact hcnt _ _ hGo
  · show totalGreenEquivalentOf (countsOf (ps1 ++ p :: ps2)) =
      totalGreenEquivalentOf (countsOf (ps1 ++ ps2))
    rw [countsOf_eq, countsOf_eq]
    unfold totalGreenEquivalentOf
    simp only [hcnt _ _ hG, hcnt _ _ hB, hcnt _ _ hP, hcnt _ _ hGo]

/-- Witness for C4 at a concrete UNKNOWN purchase. -/
theorem C4_unrecognized_cost_only_witness :
    (aggregate [⟨JerryType.UNKNOWN, false, 7⟩] 3).totalCost =
      (aggregate ([] : List TalismanPurchase) 3).totalCost + 7 :=
  (C4_unrecognized_cost_only [] [] ⟨JerryType.UNKNOWN, false, 7⟩ 3 rfl).1

/-- C5 (counterexample): the claim subtracts `enhancementPrice` for every
purchase with `enhanced = true`, but an UNKNOWN-tier purchase with the
flag set is counted by no recombobulated counter, so the code subtracts
nothing for it. -/
theorem C5_adjusted_cost_counterexample :
    (aggregate [⟨JerryType.UNKNOWN, true, 0⟩] 5).adjustedCost = 0 ∧
    sumCosts [⟨JerryType.UNKNOWN, true, 0⟩] -
      (countRecom [⟨JerryType.UNKNOWN, true, 0⟩] : Int) * 5 = -5 ∧
    (0 : Int) ≠ -5 := by
  refine ⟨by decide, by decide, by decide⟩

/-- C5 (amended): `adjusted_cost = total_cost − n × enhancementPrice` where
`n` counts the enhanced purchases of recognized tiers (the sum of the four
recombobulated counters); for purchases produced by the classifier the two
counts coincide, so there the claim holds verbatim; the result may be
negative and is returned as-is. -/
theorem C5_adjusted_cost_amended :
    (∀ (ps : List TalismanPurchase) (price : Int), 0 ≤ price →
      (aggregate ps price).adjustedCost =
        sumCosts ps -
          ((countTier JerryType.GREEN true ps + countTier JerryType.BLUE true ps +
            countTier JerryType.PURPLE true ps + countTier JerryType.GOLDEN true ps : Nat) : Int) *
            price) ∧
    (∀ (s : List Char) (price : Int), 0 ≤ price →
      (aggregate (ExtractJerryPurchases s) price).adjustedCost =
        (aggregate (ExtractJerryPurchases s) price).totalCost -
          (countRecom (ExtractJerryPurchases s) : Int) * price) ∧
    (aggregate [⟨JerryType.GREEN, true, 0⟩] 1).adjustedCost = -1 := by
  have hmain : ∀ (ps : List TalismanPurchase) (price : Int),
      (aggregate ps price).adjustedCost =
        sumCosts ps -
          ((countTier JerryType.GREEN true ps + countTier JerryType.BLUE true ps +
            countTier JerryType.PURPLE true ps + countTier JerryType.GOLDEN true ps : Nat) : Int) *
            price := by
    intro ps price
    show adjustedCostOf (countsOf ps) price = _
    rw [countsOf_eq]
    unfold adjustedCostOf
    norm_num
  refine ⟨fun ps price _ => hmain ps price, ?_, by decide⟩
  intro s price _
  have hnr : ∀ p ∈ ExtractJerryPurchases s,
      p.recombobulated = true → p.type ≠ JerryType.UNKNOWN := by
    intro p hp hr
    rcases List.mem_map.mp hp with ⟨m, hm, rfl⟩
    exact classify_unknown_not_recom m hr
  rw [hmain, countRecom_eq_sum hnr, (aggregate_counts (ExtractJerryPurchases s) price).1]

/-- Witness for C5 (amended) at a concrete enhanced purchase. -/
theorem C5_adjusted_cost_amended_witness :
    (aggregate [⟨JerryType.GREEN, true, 100⟩] 30).adjustedCost =
      sumCosts [⟨JerryType.GREEN, true, 100⟩] -
        ((countTier JerryType.GREEN true [⟨JerryType.GREEN, true, 100⟩] +
          countTier JerryType.BLUE true [⟨JerryType.GREEN, true, 100⟩] +
          countTier JerryType.PURPLE true [⟨JerryType.GREEN, true, 100⟩] +
          countTier JerryType.GOLDEN true [⟨JerryType.GREEN, true, 100⟩] : Nat) : Int) * 30 :=
  C5_adjusted_cost_amended.1 [⟨JerryType.GREEN, true, 100⟩] 30 (by decide)

/-- C6: a raw match whose stripped cost token fails to parse is classified
with cost 0 (the warning is console output outside this model), and every
purchase produced by the extraction-and-classification pipeline has a
non-negative cost. -/
theorem C6_unparsable_cost_zero :
    (∀ m : RawMatch,
      stollModel ((m.costTok.filter (fun c => c ≠ ',')).drop 1) = none →
      (classify m).cost = 0) ∧
    (∀ (s : List Char) (p : TalismanPurchase), p ∈ ExtractJerryPurchases s →
      0 ≤ p.cost) := by
  constructor
  · intro m hm
    show parseCostToken m.costTok = 0
    unfold parseCostToken
    rw [hm]
  · intro s p hp
    rcases List.mem_map.mp hp with ⟨m, hm, rfl⟩
    have hsh := extractLoop_shape _ _ _ hm
    exact parseCostToken_nonneg hsh.2

/-- Witness for C6 at a concrete unparsable token. -/
theorem C6_unparsable_cost_zero_witness :
    (classify ⟨"9".toList, "Red".toList, ",".toList⟩).cost = 0 :=
  C6_unparsable_cost_zero.1 ⟨"9".toList, "Red".toList, ",".toList⟩ (by decide)

/-- C7: extraction reports the leftmost match, resumes right after it and
repeats, so the reported matches correspond to a list of disjoint
intervals in left-to-right input order, the extracted list is exactly
those matches in that order, and every position where the pattern matches
falls inside one of the reported intervals (no occurrence is skipped;
overlapping occurrences are absorbed by the non-overlapping scan). -/
theorem C7_extraction_all_matches_ordered (s : List Char) :
    (extractRawMatches s =
      (extractScanPos (s.length + 1) 0 s).map (fun x => x.2.2)) ∧
    (∀ x ∈ extractScanPos (s.length + 1) 0 s, x.1 < x.2.1 ∧ x.2.1 ≤ s.length) ∧
    List.Chain' (fun x y => x.2.1 ≤ y.1) (extractScanPos (s.length + 1) 0 s) ∧
    (∀ j, matchAt (s.drop j) ≠ none →
      ∃ x ∈ extractScanPos (s.length + 1) 0 s, x.1 ≤ j ∧ j < x.2.1) := by
  have h := extractScanPos_spec (s.length + 1) s 0 (by omega)
  refine ⟨extractLoop_eq_map _ 0 s, ?_, h.2.1, ?_⟩
  · intro x hx
    have hb := h.1 x hx
    exact ⟨hb.2.1, by omega⟩
  · intro j hj
    rcases h.2.2 j hj with ⟨x, hxm, h1, h2⟩
    exact ⟨x, hxm, by omega, by omega⟩

/-- Witness for C7: on a concrete matching line the position-0 occurrence
is covered by a reported match interval. -/
theorem C7_extraction_all_matches_ordered_witness :
    ∃ x ∈ extractScanPos (sampleLog.length + 1) 0 sampleLog,
      x.1 ≤ 0 ∧ 0 < x.2.1 :=
  (C7_extraction_all_matches_ordered sampleLog).2.2.2 0 (by decide)

/-- C8: aggregation over a concatenation is field-wise additive in the
eight counters, `totalCost`, `totalGreenEquivalent` and `adjustedCost`;
the average is recomputed from the merged totals and is itself not
additive (witnessed by a concrete pair of lists). -/
theorem C8_aggregation_additive :
    (∀ (A B : List TalismanPurchase) (price : Int),
      (aggregate (A ++ B) price).totalCost =
        (aggregate A price).totalCost + (aggregate B price).totalCost ∧
      (aggregate (A ++ B) price).greenCount =
        (aggregate A price).greenCount + (aggregate B price).greenCount ∧
      (aggregate (A ++ B) price).recomGreenCount =
        (aggregate A price).recomGreenCount + (aggregate B price).recomGreenCount ∧
      (aggregate (A ++ B) price).blueCount =
        (aggregate A price).blueCount + (aggregate B price).blueCount ∧
      (aggregate (A ++ B) price).recomBlueCount =
        (aggregate A price).recomBlueCount + (aggregate B price).recomBlueCount ∧
      (aggregate (A ++ B) price).purpleCount =
        (aggregate A price).purpleCount + (aggregate B price).purpleCount ∧
      (aggregate (A ++ B) price).recomPurpleCount =
        (aggregate A price).recomPurpleCount + (aggregate B price).recomPurpleCount ∧
      (aggregate (A ++ B) price).goldenCount =
        (aggregate A price).goldenCount + (aggregate B price).goldenCount ∧
      (aggregate (A ++ B) price).recomGoldenCount =
        (aggregate A price).recomGoldenCount + (aggregate B price).recomGoldenCount ∧
      (aggregate (A ++ B) price).totalGreenEquivalent =
        (aggregate A price).totalGreenEquivalent + (aggregate B price).totalGreenEquivalent ∧
      (aggregate (A ++ B) price).adjustedCost =
        (aggregate A price).adjustedCost + (aggregate B price).adjustedCost ∧
      (aggregate (A ++ B) price).avgPricePerGreen =
        (if 0 < (aggregate A price).totalGreenEquivalent +
              (aggregate B price).totalGreenEquivalent
          then doubleDivTrunc
            ((aggregate A price).adjustedCost + (aggregate B price).adjustedCost)
            ((aggregate A price).totalGreenEquivalent +
              (aggregate B price).totalGreenEquivalent)
          else 0)) ∧
    (aggregate ([⟨JerryType.GREEN, false, 1⟩] ++ [⟨JerryType.GREEN, false, 0⟩]) 0).avgPricePerGreen ≠
      (aggregate [⟨JerryType.GREEN, false, 1⟩] 0).avgPricePerGreen +
        (aggregate [⟨JerryType.GREEN, false, 0⟩] 0).avgPricePerGreen := by
  constructor
  · intro A B price
    have htge : ∀ X : List TalismanPurchase,
        (aggregate X price).totalGreenEquivalent = totalGreenEquivalentOf (countsOf X) :=
      fun X => rfl
    have hadj : ∀ X : List TalismanPurchase,
        (aggregate X price).adjustedCost = adjustedCostOf (countsOf X) price :=
      fun X => rfl
    have htgeAdd : totalGreenEquivalentOf (countsOf (A ++ B)) =
        totalGreenEquivalentOf (countsOf A) + totalGreenEquivalentOf (countsOf B) := by
      rw [countsOf_eq, countsOf_eq, countsOf_eq]
      unfold totalGreenEquivalentOf
      simp only [countTier_append]
      ring
    have hadjAdd : adjustedCostOf (countsOf (A ++ B)) price =
        adjustedCostOf (countsOf A) price + adjustedCostOf (countsOf B) price := by
      rw [countsOf_eq, countsOf_eq, countsOf_eq]
      unfold adjustedCostOf
      simp only [countTier_append, sumCosts_append]
      push_cast
      ring
    have ha := aggregate_counts (A ++ B) price
    have hA := aggregate_counts A price
    have hB := aggregate_counts B price
    refine ⟨?_, ?_, ?_, ?_, ?_, ?_, ?_, ?_, ?_, ?_, ?_, ?_⟩
    · rw [ha.1, hA.1, hB.1, sumCosts_append]
    · rw [ha.2.1, hA.2.1, hB.2.1, countTier_append]
    · rw [ha.2.2.1, hA.2.2.1, hB.2.2.1, countTier_append]
    · rw [ha.2.2.2.1, hA.2.2.2.1, hB.2.2.2.1, countTier_append]
    · rw [ha.2.2.2.2.1, hA.2.2.2.2.1, hB.2.2.2.2.1, countTier_append]
    · rw [ha.2.2.2.2.2.1, hA.2.2.2.2.2.1, hB.2.2.2.2.2.1, countTier_append]
    · rw [ha.2.2.2.2.2.2.1, hA.2.2.2.2.2.2.1, hB.2.2.2.2.2.2.1, countTier_append]
    · rw [ha.2.2.2.2.2.2.2.1, hA.2.2.2.2.2.2.2.1, hB.2.2.2.2.2.2.2.1, countTier_append]
    · rw [ha.2.2.2.2.2.2.2.2, hA.2.2.2.2.2.2.2.2, hB.2.2.2.2.2.2.2.2, countTier_append]
    · rw [htge, htge, htge, htgeAdd]
    · rw [hadj, hadj, hadj, hadjAdd]
    · show (if 0 < totalGreenEquivalentOf (countsOf (A ++ B)) then
          doubleDivTrunc (adjustedCostOf (countsOf (A ++ B)) price)
            (totalGreenEquivalentOf (countsOf (A ++ B)))
          else (0 : Int)) = _
      rw [htgeAdd, hadjAdd, htge, htge, hadj, hadj]
  · decide

/-- C9: classification is a total function of the raw match; the
recombobulated flag is an exact lookup of the pair (tier, rarity token) in
the four-entry table GREEN·"9", BLUE·"5", PURPLE·"6", GOLDEN·"d", and
every other pair — including every pair whose tier is UNKNOWN — yields
false. -/
theorem C9_enhancement_table (m : RawMatch) :
    ((classify m).recombobulated = true ↔
      (jerryTypeOf m.color, m.rarity) ∈ RECOM_TABLE) ∧
    (jerryTypeOf m.color = JerryType.UNKNOWN →
      (classify m).recombobulated = false) := by
  constructor
  · have hshow : (classify m).recombobulated =
        recombobulatedOf (jerryTypeOf m.color) m.rarity := rfl
    rw [hshow]
    cases jerryTypeOf m.color <;> simp [recombobulatedOf, RECOM_TABLE]
  · intro h
    have hshow : (classify m).recombobulated =
        recombobulatedOf (jerryTypeOf m.color) m.rarity := rfl
    rw [hshow, h, recombobulatedOf_UNKNOWN]

/-- Witness for C9 at a concrete unrecognized color. -/
theorem C9_enhancement_table_witness :
    (classify ⟨"9".toList, "Red".toList, "5".toList⟩).recombobulated = false :=
  (C9_enhancement_table ⟨"9".toList, "Red".toList, "5".toList⟩).2 (by decide)

/-- C10: the extractor's color alternation spells "PurPle" while the
classifier compares against "Purple", so no pipeline purchase ever has the
PURPLE tier, and both purple counters of every aggregated summary over
pipeline output are 0. -/
theorem C10_purple_unreachable :
    (∀ (s : List Char) (p : TalismanPurchase),
      p ∈ ExtractJerryPurchases s → p.type ≠ JerryType.PURPLE) ∧
    (∀ (s : List Char) (price : Int),
      (aggregate (ExtractJerryPurchases s) price).purpleCount = 0 ∧
      (aggregate (ExtractJerryPurchases s) price).recomPurpleCount = 0) := by
  have hmain : ∀ (s : List Char) (p : TalismanPurchase),
      p ∈ ExtractJerryPurchases s → p.type ≠ JerryType.PURPLE := by
    intro s p hp
    rcases List.mem_map.mp hp with ⟨m, hm, rfl⟩
    have hsh := extractLoop_shape _ _ _ hm
    exact jerryTypeOf_not_purple hsh.1
  refine ⟨hmain, ?_⟩
  intro s price
  have hcount : ∀ e : Bool,
      countTier JerryType.PURPLE e (ExtractJerryPurchases s) = 0 := by
    intro e
    unfold countTier
    rw [List.countP_eq_zero]
    intro p hp
    simp [hmain s p hp]
  have ha := aggregate_counts (ExtractJerryPurchases s) price
  exact ⟨ha.2.2.2.2.2.1.trans (hcount false), ha.2.2.2.2.2.2.1.trans (hcount true)⟩

/-- Witness for C10 at a concrete extracted purchase. -/
theorem C10_purple_unreachable_witness :
    (⟨JerryType.GREEN, true, 12500⟩ : TalismanPurchase).type ≠ JerryType.PURPLE :=
  C10_purple_unreachable.1 sampleLog ⟨JerryType.GREEN, true, 12500⟩ (by decide)

/-- Witness for C2 (amended) at a concrete purchase list with positive
tier-equivalent total. -/
theorem C2_average_truncating_division_witness :
    (aggregate [⟨JerryType.GREEN, true, 0⟩, ⟨JerryType.GREEN, false, 0⟩] 3).avgPricePerGreen =
      doubleDivTrunc
        (aggregate [⟨JerryType.GREEN, true, 0⟩, ⟨JerryType.GREEN, false, 0⟩] 3).adjustedCost
        (aggregate [⟨JerryType.GREEN, true, 0⟩,
          ⟨JerryType.GREEN, false, 0⟩] 3).totalGreenEquivalent :=
  (C2_average_truncating_division
    [⟨JerryType.GREEN, true, 0⟩, ⟨JerryType.GREEN, false, 0⟩] 3).2.1 (by decide)
